import Mathlib

/-!
Verification of the bobble/josh view-filtering git proxy against its
specification.  The development shallowly embeds the Rust sources:

* `src/bin/bobble.rs` — the HTTP front door (`BobbleHttp::call`),
  the fetch-and-filter pipeline (`BobbleHttp::async_fetch`,
  `make_view_repo`), the regex-based view extraction (`PREFIX_RE`,
  `VIEW_RE`), and the entry point (`main`/`main_ret`).
* `tests/helpers.rs` — the `TestHost` implementation of the `RepoHost`
  collaborator.
* `josh-proxy/src/juniper_hyper.rs` — the GraphQL GET adapter
  (`gql_request_from_get`).

Pure functions become Lean functions; request handling becomes a pure
function from the request plus an environment (describing the behaviour
of external collaborators: the git fetch, the branch list, the spawned
CGI backend) to a response together with an explicit list of performed
effects.  Rust panics (`expect`/`unwrap` failures) are modelled by an
explicit `panicked` outcome.  The History Filter body is not part of the
provided sources and is modelled from the specification where needed.
-/

/-! ## TestHost (tests/helpers.rs) -/

/-- Model of `git2::Error`: an opaque error value carrying a message. -/
structure GitError where
  message : String
deriving DecidableEq

/-- Outcome of running Rust code that may panic (`expect`, `unwrap`,
indexing out of bounds): either a normal value or a panic with the
panic message. -/
inductive Outcome (α : Type) where
  | ok : α → Outcome α
  | panicked : String → Outcome α
deriving DecidableEq

/-- `TestHost::create_project` from `tests/helpers.rs`: it calls
`git2::Repository::init_bare(&repo_dir).expect("TestHost: init_bare failed")`
and then returns `Ok(())`.  The outcome of the external `init_bare`
call is the parameter; `.expect` turns its error case into a panic. -/
def TestHost.create_project (initBare : Except GitError Unit) :
    Outcome (Except GitError Unit) :=
  match initBare with
  | .ok _ => .ok (.ok ())
  | .error _ => .panicked "TestHost: init_bare failed"

/-- Discriminator: does a `create_project` outcome return an error
`Result` value (`Ok(Err(_))` at the process level, i.e. a normal return
whose returned `Result` is an error)? -/
def returnsErrValue : Outcome (Except GitError Unit) → Bool
  | .ok (.error _) => true
  | _ => false

/-! ## GraphQL GET adapter (josh-proxy/src/juniper_hyper.rs) -/

/-- Model of `GraphQLRequestError` from `juniper_hyper.rs`.  The error
payloads of the external libraries (hyper, serde) are modelled as their
message strings. -/
inductive GraphQLRequestError where
  | bodyHyper : String → GraphQLRequestError
  | bodyUtf8 : String → GraphQLRequestError
  | bodyJSONError : String → GraphQLRequestError
  | variablesErr : String → GraphQLRequestError
  | invalid : String → GraphQLRequestError
deriving DecidableEq

/-- `invalid_err` from `juniper_hyper.rs`: the "specified multiple
times" error for a query-string parameter. -/
def invalid_err (parameterName : String) : GraphQLRequestError :=
  .invalid ("'" ++ parameterName ++ "' parameter is specified multiple times")

/-- Model of juniper's `GraphQLRequest::new(query, operation_name, variables)`
value, polymorphic in the scalar-value type of parsed variables. -/
structure GqlRequest (V : Type) where
  query : String
  operation_name : Option String
  gqlVariables : Option V
deriving DecidableEq

/-- The `for (key, value) in form_urlencoded::parse(..)` loop of
`gql_request_from_get`, with the loop state passed explicitly.  In the
source `operation_name` is an immutable `let operation_name = None;`:
the `"operationName"` arm checks `operation_name.is_some()` (returning
the duplicate-parameter error) and otherwise does nothing.  `parseJson`
models `serde_json::from_str::<InputValue<S>>`. -/
def gqlFold (parseJson : String → Except String V) :
    List (String × String) → Option String → Option String → Option V →
    Except GraphQLRequestError (Option String × Option String × Option V)
  | [], q, op, vars => .ok (q, op, vars)
  | (k, v) :: rest, q, op, vars =>
    if k = "query" then
      if q.isSome then .error (invalid_err "query")
      else gqlFold parseJson rest (some v) op vars
    else if k = "operationName" then
      if op.isSome then .error (invalid_err "operationName")
      else gqlFold parseJson rest q op vars
    else if k = "variables" then
      if vars.isSome then .error (invalid_err "variables")
      else
        match parseJson v with
        | .ok parsedVariables => gqlFold parseJson rest q op (some parsedVariables)
        | .error e => .error (.variablesErr e)
    else gqlFold parseJson rest q op vars

/-- `gql_request_from_get` from `juniper_hyper.rs`.  The input is the
list of `(key, value)` pairs produced by `form_urlencoded::parse` on
the query string (the parser is an external crate; every query string
parses to some such list, so quantifying over all pair lists covers all
query strings). -/
def gql_request_from_get (parseJson : String → Except String V)
    (pairs : List (String × String)) :
    Except GraphQLRequestError (GqlRequest V) :=
  match gqlFold parseJson pairs none none none with
  | .error e => .error e
  | .ok (some q, op, vars) => .ok (GqlRequest.mk q op vars)
  | .ok (none, _, _) => .error (.invalid "'query' parameter is missing")

/-! ## Entry point (`main` / `main_ret` in bobble.rs) -/

/-- The possible ways `main_ret` leaves: returning an exit code,
panicking (argument indexing out of bounds), or entering the HTTP
server loop (`core.run(futures::future::empty())`, which never
finishes). -/
inductive MainOutcome where
  | exitCode : Int → MainOutcome
  | panicked : MainOutcome
  | serves : MainOutcome
deriving DecidableEq

/-- Model of Rust `str::ends_with`, at the character-list level. -/
def strEndsWith (s suffix : String) : Bool :=
  suffix.data.reverse.isPrefixOf s.data.reverse

/-- `main_ret` from `bobble.rs`, restricted to its control flow on the
argument vector: if `args[0]` ends with `"/update"` it returns
`virtual_repo::update_hook(&args[1], &args[2], &args[3])` (the hook
body lives in the `bobble` library, outside the provided sources, so it
is an abstract parameter here); otherwise it starts the HTTP server and
never returns through this path. -/
def main_ret (update_hook : String → String → String → Int)
    (args : List String) : MainOutcome :=
  match args with
  | [] => .panicked
  | a0 :: rest =>
    if strEndsWith a0 "/update" then
      match rest with
      | a1 :: a2 :: a3 :: _ => .exitCode (update_hook a1 a2 a3)
      | _ => .panicked
    else .serves

/-- `main` is `exit(main_ret())`: when `main_ret` returns a code, the
process exit status is that code. -/
def processExitStatus (update_hook : String → String → String → Int)
    (args : List String) : Option Int :=
  match main_ret update_hook args with
  | .exitCode c => some c
  | _ => none


/-! ## The view regular expressions (`PREFIX_RE`, `VIEW_RE` in bobble.rs)

`VIEW_RE` is `/(?P<view>.*)[.]git/.*` and `PREFIX_RE` is
`(?P<prefix>/.*[.]git)/.*`.  Both regexes match (leftmost-first, with a
greedy `.*` whose `.` excludes newlines) at the same positions of the
same subject, and on a match `prefix` is `"/" ++ view ++ ".git"`: after
the leading `/`, both need the last newline-reachable occurrence of
`".git/"`.  `reCap` computes that shared leftmost-greedy capture: the
pair of the `view` capture and the text following `".git/"`. -/

/-- The character list of `".git/"`. -/
def gitSlashL : List Char := ['.', 'g', 'i', 't', '/']

/-- Does `pat` occur as a contiguous sublist of `s`? -/
def occursIn (pat : List Char) : List Char → Bool
  | [] => pat.isEmpty
  | c :: t => pat.isPrefixOf (c :: t) || occursIn pat t

/-- Does the character list contain a newline?  (Rust regex `.` does
not match `\n`.) -/
def hasNlL : List Char → Bool
  | [] => false
  | c :: t => c == '\n' || hasNlL t

/-- Split `s` at the last occurrence of `pat` that is reachable by a
greedy newline-free `.*`: returns `(a, b)` with `s = a ++ pat ++ b`,
`a` newline-free and maximal.  Returns `none` when no occurrence of
`pat` is reachable. -/
def lastSplitNN (pat : List Char) : List Char → Option (List Char × List Char)
  | [] => none
  | c :: s =>
    if c == '\n' then
      if pat.isPrefixOf (c :: s) then some ([], (c :: s).drop pat.length) else none
    else
      match lastSplitNN pat s with
      | some (a, b) => some (c :: a, b)
      | none =>
        if pat.isPrefixOf (c :: s) then some ([], (c :: s).drop pat.length) else none

/-- Leftmost-first match of `/(.*)[.]git/.*` (with greedy newline-free
`.*`): scan for the first `/` from which `".git/"` is reachable, and
capture greedily. -/
def reCap : List Char → Option (List Char × List Char)
  | [] => none
  | c :: t =>
    if c == '/' then
      match lastSplitNN gitSlashL t with
      | some (v, r) => some (v, r)
      | none => reCap t
    else reCap t

/-- The `view` capture used by `make_view_repo`: `VIEW_RE.captures`
yields the view on a match, `"."` (identity view) otherwise. -/
def viewOf (s : String) : String :=
  match reCap s.data with
  | some (v, _) => String.mk v
  | none => "."

/-- The `prefix` capture used by `BobbleHttp::call`: `"/<view>.git"` on
a match of `PREFIX_RE`, the empty string otherwise. -/
def prefOf (s : String) : String :=
  match reCap s.data with
  | some (v, _) => String.mk ('/' :: (v ++ ['.', 'g', 'i', 't']))
  | none => ""

/-- Rust `str::replacen(pat, "", 1)`: remove the first occurrence of
`pat`, leave the rest unchanged. -/
def replacen1 (pat : List Char) : List Char → List Char
  | [] => if pat.isPrefixOf ([] : List Char) then ([] : List Char).drop pat.length else []
  | c :: t =>
    if pat.isPrefixOf (c :: t) then (c :: t).drop pat.length
    else c :: replacen1 pat t

/-- String wrapper for `replacen1`. -/
def strReplacen1 (s pat : String) : String := String.mk (replacen1 pat.data s.data)

/-! ## The HTTP service (`BobbleHttp` in bobble.rs)

The request handler is embedded as a pure function from the request and
an environment describing the external collaborators to the response
paired with the ordered list of effects the handler performs. -/

/-- The observable effects of handling one request. -/
inductive Effect where
  | fetchOriginMaster (username password : String)
  | applyViewToBranch (branch view : String)
  | setupTmpRepo (view : String)
  | invokeCgi (envVars : List (String × String))
deriving DecidableEq

/-- hyper `Authorization: Basic` credentials: a username and an
optional password. -/
structure BasicCreds where
  username : String
  password : Option String
deriving DecidableEq

/-- The part of a hyper `Request` the handler reads: the URI path and
the parsed Basic credentials (`none` when the header is absent or is
not parseable Basic authorization). -/
structure HttpRequest where
  path : String
  auth : Option BasicCreds
deriving DecidableEq

/-- The part of a hyper `Response` the claims talk about. -/
structure HttpResponse where
  status : Nat
  headers : List (String × String)
deriving DecidableEq

/-- Behaviour of the external collaborators during one request:
the outcome of `base_repo.fetch_origin_master`, the branch list of the
base repository, the path returned by `virtual_repo::setup_tmp_repo`,
and the response produced by `cgi::do_cgi`. -/
structure ServiceEnv where
  fetchResult : Except GitError Unit
  branches : List String
  tmpPath : String
  cgiResponse : HttpResponse

/-- The `401 Unauthorized` response with the Basic challenge header,
as built at both `401` sites of `BobbleHttp::call`. -/
def challengeResponse : HttpResponse :=
  ⟨401, [("WWW-Authenticate", "Basic realm=\"User Visible Realm\"")]⟩

/-- `make_view_repo` from bobble.rs: extract the view string from the
URL, apply the view to every branch of the base repository, then set up
the per-view scratch repository, returning its path. -/
def make_view_repo (env : ServiceEnv) (url : String) : String × List Effect :=
  let view_string := viewOf url
  (env.tmpPath,
    env.branches.map (fun b => Effect.applyViewToBranch b view_string)
      ++ [Effect.setupTmpRepo view_string])

/-- `BobbleHttp::async_fetch`: run `fetch_origin_master` and, only on
success, `make_view_repo`; a fetch error is returned as the error. -/
def async_fetch (env : ServiceEnv) (path username password : String) :
    Except GitError String × List Effect :=
  match env.fetchResult with
  | .ok _ =>
    match make_view_repo env path with
    | (p, es) => (.ok p, Effect.fetchOriginMaster username password :: es)
  | .error e => (.error e, [Effect.fetchOriginMaster username password])

/-- `BobbleHttp::call`: compute the `/<view>.git` prefix and the path
with that prefix removed; answer `401` plus the Basic challenge when no
Basic credentials are present; otherwise fetch-and-filter, answering
`401` plus the challenge on a fetch error, and on success spawn
`git http-backend` through the CGI bridge with the four environment
variables set on the command. -/
def BobbleHttp.call (env : ServiceEnv) (req : HttpRequest) :
    HttpResponse × List Effect :=
  let pre := prefOf req.path
  let path_without := if pre ≠ "" then strReplacen1 req.path pre else req.path
  match req.auth with
  | none => (challengeResponse, [])
  | some creds =>
    let password := creds.password.getD ""
    match async_fetch env req.path creds.username password with
    | (.error _, es) => (challengeResponse, es)
    | (.ok p, es) =>
      (env.cgiResponse,
        es ++ [Effect.invokeCgi
          [("GIT_PROJECT_ROOT", p), ("GIT_DIR", p),
           ("GIT_HTTP_EXPORT_ALL", ""), ("PATH_INFO", path_without)]])


/-! ## The worker pool (`CpuPool::new(1)` in `main_ret`)

`main_ret` creates `CpuPool::new(1)` and every request handler spawns
its fetch-and-filter closure on this shared pool
(`self.pool.spawn(...)` in `async_fetch`).  The pool is modelled as a
nondeterministic scheduler over `w` workers: a pending job may start
when a worker is free, a running job performs its next atomic step
(emitting an event tagged with the job id), and an exhausted job
leaves its worker.  A trace is the emitted event sequence. -/

/-- The number of worker threads of the pool created in `main_ret`:
`CpuPool::new(1)`. -/
def cpuPoolWorkers : Nat := 1

/-- Scheduler state: jobs not yet started and jobs currently occupying
a worker, each as (request id, remaining steps). -/
structure PoolState where
  pending : List (Nat × List Effect)
  running : List (Nat × List Effect)

/-- Traces of the `w`-worker pool from a given state: stop at any
point, start a pending job when fewer than `w` workers are busy,
perform the next step of a running job (emitting its event), or retire
a finished job. -/
inductive PoolRun (w : Nat) : PoolState → List (Nat × Effect) → Prop where
  | halt (s : PoolState) : PoolRun w s []
  | start (p1 p2 : List (Nat × List Effect)) (j : Nat × List Effect)
      (r : List (Nat × List Effect)) (tr : List (Nat × Effect)) :
      r.length < w →
      PoolRun w ⟨p1 ++ p2, j :: r⟩ tr →
      PoolRun w ⟨p1 ++ j :: p2, r⟩ tr
  | work (p : List (Nat × List Effect)) (r1 r2 : List (Nat × List Effect))
      (j : Nat) (st : Effect) (ss : List Effect) (tr : List (Nat × Effect)) :
      PoolRun w ⟨p, r1 ++ (j, ss) :: r2⟩ tr →
      PoolRun w ⟨p, r1 ++ (j, st :: ss) :: r2⟩ ((j, st) :: tr)
  | finish (p : List (Nat × List Effect)) (r1 r2 : List (Nat × List Effect))
      (j : Nat) (tr : List (Nat × Effect)) :
      PoolRun w ⟨p, r1 ++ r2⟩ tr →
      PoolRun w ⟨p, r1 ++ (j, []) :: r2⟩ tr

/-- Job `j` occurs in the trace only as a leading block: after the
first event of a different job, no event of `j` appears. -/
def leadsOnly (j : Nat) (tr : List (Nat × Effect)) : Prop :=
  j ∉ (tr.dropWhile (fun e => e.1 == j)).map Prod.fst

/-- A trace is serial when every job's events form one contiguous
block. -/
def SerialTrace : List (Nat × Effect) → Prop
  | [] => True
  | (j, _) :: tr => leadsOnly j tr ∧ SerialTrace tr

/-- The job one request dispatches on the pool: its id together with
the ordered effects of `async_fetch` (the fetch followed by the
filtering work of `make_view_repo`). -/
def requestJob (env : ServiceEnv) (req : HttpRequest) (reqId : Nat)
    (creds : BasicCreds) : Nat × List Effect :=
  (reqId, (async_fetch env req.path creds.username (creds.password.getD "")).2)


/-! ## The History Filter (spec §3, §4.1)

`make_view_repo` filters every branch through
`Scratch::apply_view_to_branch`, whose body lives in the `bobble`
library and is not among the provided sources.  The definitions below
are modelled from the specification. -/

mutual
/-- Modelled from the spec: git trees (§3) — content-addressed,
immutable, an ordered mapping from entry names to blobs or subtrees
(entry modes are not needed by the claims).  `Scratch::apply_view_to_branch`
is missing from the sources, so the tree data model follows §3. -/
inductive GTree where
  | blob : String → GTree
  | node : GForest → GTree
deriving DecidableEq
inductive GForest where
  | fnil : GForest
  | fcons : String → GTree → GForest → GForest
deriving DecidableEq
end

/-- Look up an entry name in an ordered directory. -/
def lookupForest (name : String) : GForest → Option GTree
  | .fnil => none
  | .fcons n t rest => if n = name then some t else lookupForest name rest

/-- Modelled from the spec: a view as a normalized path-selection rule
(§3: "keep subtree rooted at path P, reparented to root"; `[]` is the
identity view "keep everything").  Applying a view selects the subtree
at the path, or fails ("no match") when the path is absent or crosses
a blob. -/
def applyView : List String → GTree → Option GTree
  | [], t => some t
  | _ :: _, .blob _ => none
  | name :: p, .node f =>
    match lookupForest name f with
    | some t => applyView p t
    | none => none

/-- Modelled from the spec: a source commit (§3) — tree, ordered
parent oids, author, message. -/
structure SCommit where
  tree : GTree
  parents : List Nat
  author : String
  message : String

/-- Modelled from the spec: a filtered commit, content-addressed by
value (§3: "identity is value equality"); parents are embedded by
value, so equal filtered histories have equal (content-addressed)
oids. -/
inductive FCommit where
  | mk : GTree → List FCommit → String → String → FCommit

/-- The filtered tree of a filtered commit. -/
def FCommit.ftree : FCommit → GTree
  | .mk t _ _ _ => t

/-- The spec's filter error (§4.1): an object-store read failure (or an
acyclicity violation of the store) is `CorruptHistory`, fatal. -/
inductive FilterErr where
  | corruptHistory
deriving DecidableEq

/-- Step 3 of §4.1: the deduplicated list of surviving filtered
parents, in original order — parents whose image is "no commit" are
dropped, as is a parent whose filtered tree duplicates an
already-listed parent's tree (the conservative merge collapse of §9:
collapse only on identical filtered trees). -/
def dedupParents : List (Option FCommit) → List FCommit → List FCommit
  | [], acc => acc
  | none :: rest, acc => dedupParents rest acc
  | some fc :: rest, acc =>
    if acc.any (fun fc2 => fc2.ftree = fc.ftree) then dedupParents rest acc
    else dedupParents rest (acc ++ [fc])

/-- Steps 1–5 of §4.1 for one commit, given the filtered images of its
parents: if the view selects nothing, the image is the first parent's
image ("no commit" at a root); otherwise keep the selected subtree,
dedup parents, skip the commit entirely when it is a no-op over its
single surviving parent, and otherwise create a new filtered commit
with the author and message preserved verbatim. -/
def combine (v : List String) (c : SCommit) (imgs : List (Option FCommit)) :
    Option FCommit :=
  match applyView v c.tree with
  | none =>
    match imgs with
    | [] => none
    | i :: _ => i
  | some newTree =>
    match dedupParents imgs [] with
    | [fp] =>
      if fp.ftree = newTree then some fp
      else some (.mk newTree [fp] c.author c.message)
    | newParents => some (.mk newTree newParents c.author c.message)

mutual
/-- The pure History Filter of §4.1 (reference semantics, no cache):
walk the graph parents-first; oids are indices into the store and an
acyclic store has parents with strictly smaller oids (anything else is
`CorruptHistory`). -/
def filterCommit (v : List String) (store : List SCommit) (oid : Nat) :
    Except FilterErr (Option FCommit) :=
  match store[oid]? with
  | none => .error .corruptHistory
  | some c =>
    match filterParents v store oid c.parents with
    | .error e => .error e
    | .ok imgs => .ok (combine v c imgs)
termination_by (oid, 1, 0)

def filterParents (v : List String) (store : List SCommit) (oid : Nat) :
    List Nat → Except FilterErr (List (Option FCommit))
  | [] => .ok []
  | p :: ps =>
    if _ : p < oid then
      match filterCommit v store p with
      | .error e => .error e
      | .ok i =>
        match filterParents v store oid ps with
        | .error e => .error e
        | .ok is => .ok (i :: is)
    else .error .corruptHistory
termination_by ps => (oid, 0, ps.length)
end

/-- Lookup in the Filter Cache (§3: a mapping from source oid to the
filtered image for the view). -/
def cacheLookup (oid : Nat) : List (Nat × Option FCommit) → Option (Option FCommit)
  | [] => none
  | (k, img) :: rest => if k = oid then some img else cacheLookup oid rest

mutual
/-- The memoized History Filter, threading the Filter Cache exactly as
§4.1 prescribes: consult the cache first, and record
`(view, oid) → filtered image` after computing a commit's image
(step 6).  Returns the image together with the updated cache. -/
def filterMemo (v : List String) (store : List SCommit) (oid : Nat)
    (cache : List (Nat × Option FCommit)) :
    Except FilterErr (Option FCommit) × List (Nat × Option FCommit) :=
  match cacheLookup oid cache with
  | some img => (.ok img, cache)
  | none =>
    match store[oid]? with
    | none => (.error .corruptHistory, cache)
    | some c =>
      match filterMemoParents v store oid c.parents cache with
      | (.error e, cache2) => (.error e, cache2)
      | (.ok imgs, cache2) =>
        ((.ok (combine v c imgs)), (oid, combine v c imgs) :: cache2)
termination_by (oid, 1, 0)

def filterMemoParents (v : List String) (store : List SCommit) (oid : Nat) :
    List Nat → List (Nat × Option FCommit) →
    Except FilterErr (List (Option FCommit)) × List (Nat × Option FCommit)
  | [], cache => (.ok [], cache)
  | p :: ps, cache =>
    if _ : p < oid then
      match filterMemo v store p cache with
      | (.error e, cache2) => (.error e, cache2)
      | (.ok i, cache2) =>
        match filterMemoParents v store oid ps cache2 with
        | (.error e, cache3) => (.error e, cache3)
        | (.ok is, cache3) => (.ok (i :: is), cache3)
    else (.error .corruptHistory, cache)
termination_by ps => (oid, 0, ps.length)
end

/-- A cache is correct when every entry records the pure filter's
result for its oid (§3: "the mapping is pure, since source commits are
immutable"). -/
def CacheOK (v : List String) (store : List SCommit)
    (cache : List (Nat × Option FCommit)) : Prop :=
  ∀ pr ∈ cache, filterCommit v store pr.1 = .ok pr.2

/-! ## Helper lemmas -/

/-- In the `gqlFold` loop, when the incoming `operation_name` state is
`none` it stays `none`, and the duplicate-`operationName` error is
never produced. -/
theorem gqlFold_keeps_none (parseJson : String → Except String V)
    (pairs : List (String × String)) :
    ∀ q vars,
      (∀ res, gqlFold parseJson pairs q none vars = .ok res → res.2.1 = none) ∧
      gqlFold parseJson pairs q none vars ≠ .error (invalid_err "operationName") := by
  induction pairs with
  | nil =>
    intro q vars
    refine ⟨?_, by simp [gqlFold]⟩
    intro res h
    simp only [gqlFold] at h
    cases h
    rfl
  | cons kv rest ih =>
    intro q vars
    obtain ⟨k, v⟩ := kv
    by_cases hq : k = "query"
    · subst hq
      cases q with
      | some qq =>
        have e : gqlFold parseJson (("query", v) :: rest) (some qq) none vars =
            .error (invalid_err "query") := by simp [gqlFold]
        refine ⟨fun res h => ?_, ?_⟩
        · rw [e] at h; exact (nomatch h)
        · rw [e]; simp [invalid_err]
      | none =>
        have e : gqlFold parseJson (("query", v) :: rest) none none vars =
            gqlFold parseJson rest (some v) none vars := by simp [gqlFold]
        simp only [e]
        exact ih (some v) vars
    · by_cases hop : k = "operationName"
      · subst hop
        have e : gqlFold parseJson (("operationName", v) :: rest) q none vars =
            gqlFold parseJson rest q none vars := by simp [gqlFold, hq]
        simp only [e]
        exact ih q vars
      · by_cases hv : k = "variables"
        · subst hv
          cases vars with
          | some vv =>
            have e : gqlFold parseJson (("variables", v) :: rest) q none (some vv) =
                .error (invalid_err "variables") := by simp [gqlFold, hq, hop]
            refine ⟨fun res h => ?_, ?_⟩
            · rw [e] at h; exact (nomatch h)
            · rw [e]; simp [invalid_err]
          | none =>
            cases hpj : parseJson v with
            | ok pv =>
              have e : gqlFold parseJson (("variables", v) :: rest) q none none =
                  gqlFold parseJson rest q none (some pv) := by
                simp [gqlFold, hq, hop, hpj]
              simp only [e]
              exact ih q (some pv)
            | error er =>
              have e : gqlFold parseJson (("variables", v) :: rest) q none none =
                  .error (.variablesErr er) := by simp [gqlFold, hq, hop, hpj]
              refine ⟨fun res h => ?_, ?_⟩
              · rw [e] at h; exact (nomatch h)
              · rw [e]; simp [invalid_err]
        · have e : gqlFold parseJson ((k, v) :: rest) q none vars =
              gqlFold parseJson rest q none vars := by simp [gqlFold, hq, hop, hv]
          simp only [e]
          exact ih q vars


/-! ### Lemmas about the regex model -/

/-- `isPrefixOf` holds of a list against itself followed by anything. -/
theorem isPrefixOf_self_append (l x : List Char) : l.isPrefixOf (l ++ x) = true := by
  rw [List.isPrefixOf_iff_prefix]
  exact List.prefix_append l x

/-- If `pat` does not occur in `s`, `lastSplitNN` finds nothing. -/
theorem lastSplitNN_of_not_occurs (pat : List Char) :
    ∀ s, occursIn pat s = false → lastSplitNN pat s = none := by
  intro s
  induction s with
  | nil => intro _; rfl
  | cons c t ih =>
    intro h
    simp only [occursIn, Bool.or_eq_false_iff] at h
    obtain ⟨h1, h2⟩ := h
    cases hc : (c == '\n') <;> simp [lastSplitNN, hc, h1, ih h2]

/-- `".git/"` does not occur in `"git/" ++ b` when it does not occur
in `b` (no occurrence can start inside the four shifted characters). -/
theorem gitSlash_not_occurs_shift (b : List Char)
    (h : occursIn gitSlashL b = false) :
    occursIn gitSlashL ('g' :: 'i' :: 't' :: '/' :: b) = false := by
  simp only [gitSlashL] at h ⊢
  simp [occursIn, List.isPrefixOf, h]

/-- Greedy split of a well-formed subject: when `a` is newline-free
and `".git/"` does not occur in `b`, the last reachable occurrence of
`".git/"` in `a ++ ".git/" ++ b` is the explicit one. -/
theorem lastSplitNN_append (a b : List Char) (ha : hasNlL a = false)
    (hb : occursIn gitSlashL b = false) :
    lastSplitNN gitSlashL (a ++ (gitSlashL ++ b)) = some (a, b) := by
  induction a with
  | nil =>
    have hnone : lastSplitNN gitSlashL ('g' :: 'i' :: 't' :: '/' :: b) = none :=
      lastSplitNN_of_not_occurs _ _ (gitSlash_not_occurs_shift b hb)
    have hpre : gitSlashL.isPrefixOf ('.' :: ('g' :: 'i' :: 't' :: '/' :: b)) = true :=
      isPrefixOf_self_append gitSlashL b
    have hdrop : (('.' : Char) :: ('g' :: 'i' :: 't' :: '/' :: b)).drop gitSlashL.length = b :=
      List.drop_left gitSlashL b
    show (match lastSplitNN gitSlashL ('g' :: 'i' :: 't' :: '/' :: b) with
        | some (a, b') => some ('.' :: a, b')
        | none =>
          if gitSlashL.isPrefixOf ('.' :: ('g' :: 'i' :: 't' :: '/' :: b)) then
            some (([] : List Char),
              List.drop gitSlashL.length ('.' :: ('g' :: 'i' :: 't' :: '/' :: b)))
          else none) = some ([], b)
    rw [hnone]
    simp [hpre, hdrop]
  | cons c a' ih =>
    simp only [hasNlL, Bool.or_eq_false_iff] at ha
    obtain ⟨hc, ha'⟩ := ha
    simp [lastSplitNN, hc, ih ha']

/-- Leftmost-greedy capture on a well-formed subject starting with the
`/<view>.git/` shape. -/
theorem reCap_wf (v r : List Char) (hv : hasNlL v = false)
    (hr : occursIn gitSlashL r = false) :
    reCap ('/' :: (v ++ (gitSlashL ++ r))) = some (v, r) := by
  simp [reCap, lastSplitNN_append v r hv hr]

/-- Soundness of `lastSplitNN`: a successful split really decomposes
the subject, with a newline-free left part. -/
theorem lastSplitNN_sound (pat : List Char) :
    ∀ s a b, lastSplitNN pat s = some (a, b) →
      s = a ++ (pat ++ b) ∧ hasNlL a = false := by
  intro s
  induction s with
  | nil => intro a b h; exact (nomatch h)
  | cons c t ih =>
    intro a b h
    simp only [lastSplitNN] at h
    have hpre : ∀ hp : pat.isPrefixOf (c :: t) = true,
        (if pat.isPrefixOf (c :: t) then some (([] : List Char), (c :: t).drop pat.length)
          else none) = some (a, b) →
        c :: t = a ++ (pat ++ b) ∧ hasNlL a = false := by
      intro hp hsome
      rw [if_pos hp] at hsome
      obtain ⟨u, hu⟩ := List.isPrefixOf_iff_prefix.mp hp
      injection hsome with hsome
      have h1 : a = ([] : List Char) := (congrArg Prod.fst hsome).symm
      have h2 : (c :: t).drop pat.length = b := congrArg Prod.snd hsome
      subst h1
      refine ⟨?_, rfl⟩
      rw [← h2, ← hu, List.drop_left, List.nil_append]
    cases hc : (c == '\n') with
    | true =>
      rw [hc] at h
      simp only [if_true] at h
      by_cases hp : pat.isPrefixOf (c :: t) = true
      · exact hpre hp (by rw [if_pos hp]; rw [if_pos hp] at h; exact h)
      · rw [if_neg hp] at h; exact (nomatch h)
    | false =>
      rw [hc] at h
      simp only [Bool.false_eq_true, if_false] at h
      cases hls : lastSplitNN pat t with
      | some ab =>
        obtain ⟨a', b'⟩ := ab
        rw [hls] at h
        injection h with h
        have h1 : a = c :: a' := (congrArg Prod.fst h).symm
        have h2 : b = b' := (congrArg Prod.snd h).symm
        subst h1 h2
        obtain ⟨ht, ha'⟩ := ih a' b hls
        refine ⟨by rw [List.cons_append, ← ht], ?_⟩
        simp [hasNlL, hc, ha']
      | none =>
        rw [hls] at h
        by_cases hp : pat.isPrefixOf (c :: t) = true
        · exact hpre hp (by rw [if_pos hp]; rw [if_pos hp] at h; exact h)
        · rw [if_neg hp] at h; exact (nomatch h)

/-- Soundness of `reCap`: a successful capture exhibits a decomposition
of the subject matching `/(.*)[.]git/.*` with a newline-free view. -/
theorem reCap_sound :
    ∀ s v r, reCap s = some (v, r) →
      ∃ a, s = a ++ ('/' :: (v ++ (gitSlashL ++ r))) ∧ hasNlL v = false := by
  intro s
  induction s with
  | nil => intro v r h; exact (nomatch h)
  | cons c t ih =>
    intro v r h
    simp only [reCap] at h
    cases hc : (c == '/') with
    | true =>
      rw [hc] at h
      simp only [if_true] at h
      have hceq : c = '/' := by
        have := (beq_iff_eq (a := c) (b := '/')).mp hc
        exact this
      cases hls : lastSplitNN gitSlashL t with
      | some vr =>
        obtain ⟨v', r'⟩ := vr
        rw [hls] at h
        injection h with h
        have h1 : v = v' := (congrArg Prod.fst h).symm
        have h2 : r = r' := (congrArg Prod.snd h).symm
        subst h1 h2
        obtain ⟨ht, hv⟩ := lastSplitNN_sound gitSlashL t v r hls
        exact ⟨[], by rw [List.nil_append, hceq, ht], hv⟩
      | none =>
        rw [hls] at h
        obtain ⟨a, hta, hv⟩ := ih v r h
        exact ⟨c :: a, by rw [List.cons_append, hta], hv⟩
    | false =>
      rw [hc] at h
      simp only [Bool.false_eq_true, if_false] at h
      obtain ⟨a, hta, hv⟩ := ih v r h
      exact ⟨c :: a, by rw [List.cons_append, hta], hv⟩

/-- Character data of a well-formed `/<v>.git/<rest>` path. -/
theorem data_of_path (v rest : String) :
    ("/" ++ v ++ ".git/" ++ rest).data = '/' :: (v.data ++ (gitSlashL ++ rest.data)) := by
  simp [String.data_append, gitSlashL, List.append_assoc,
    (show (".git/" : String).data = ['.', 'g', 'i', 't', '/'] from rfl),
    (show ("/" : String).data = ['/'] from rfl)]

/-- The view capture of a well-formed `/<v>.git/<rest>` path is `v`. -/
theorem viewOf_wf (v rest : String) (hnl : hasNlL v.data = false)
    (hocc : occursIn gitSlashL rest.data = false) :
    viewOf ("/" ++ v ++ ".git/" ++ rest) = v := by
  unfold viewOf
  rw [data_of_path, reCap_wf v.data rest.data hnl hocc]

/-- The prefix capture of a well-formed `/<v>.git/<rest>` path is
`/<v>.git`. -/
theorem prefOf_wf (v rest : String) (hnl : hasNlL v.data = false)
    (hocc : occursIn gitSlashL rest.data = false) :
    prefOf ("/" ++ v ++ ".git/" ++ rest) = "/" ++ v ++ ".git" := by
  unfold prefOf
  rw [data_of_path, reCap_wf v.data rest.data hnl hocc]
  apply String.ext
  simp [String.data_append, (show (".git" : String).data = ['.', 'g', 'i', 't'] from rfl),
    (show ("/" : String).data = ['/'] from rfl)]

/-- A string built from a nonempty character list is not `""`. -/
theorem strMk_cons_ne_empty (c : Char) (l : List Char) : String.mk (c :: l) ≠ "" := by
  intro h
  exact (nomatch congrArg String.data h)

/-- Removing a leading occurrence with `replacen1` drops exactly it. -/
theorem replacen1_append (pat x : List Char) : replacen1 pat (pat ++ x) = x := by
  cases h : pat ++ x with
  | nil =>
    obtain ⟨hp, hx⟩ := List.append_eq_nil.mp h
    subst hp
    subst hx
    rfl
  | cons c t =>
    have h1 : pat.isPrefixOf (c :: t) = true := by
      rw [← h]; exact isPrefixOf_self_append pat x
    have h2 : (c :: t).drop pat.length = x := by
      rw [← h]; exact List.drop_left pat x
    rw [← h]
    rw [h]
    simp [replacen1, h1, h2]


/-- A pattern occurs in any list that contains it contiguously. -/
theorem occursIn_of_infix (pat l y : List Char) :
    occursIn pat (l ++ (pat ++ y)) = true := by
  induction l with
  | nil =>
    rw [List.nil_append]
    cases hs : pat ++ y with
    | nil =>
      obtain ⟨hp, _⟩ := List.append_eq_nil.mp hs
      subst hp
      rfl
    | cons c t =>
      have h1 : pat.isPrefixOf (c :: t) = true := by
        rw [← hs]; exact isPrefixOf_self_append pat y
      simp [occursIn, h1]
  | cons c l' ih =>
    rw [List.cons_append]
    simp [occursIn, ih]

/-- A path with no `".git/"` substring admits no `/<w>.git/` decomposition. -/
theorem no_decomp_of_no_gitSlash (q : String)
    (hq : occursIn gitSlashL q.data = false) :
    ∀ a w r2 : String, hasNlL w.data = false → q ≠ a ++ "/" ++ w ++ ".git/" ++ r2 := by
  intro a w r2 _ h
  have hd := congrArg String.data h
  have hocc : occursIn gitSlashL q.data = true := by
    rw [hd]
    have hshape : (a ++ "/" ++ w ++ ".git/" ++ r2).data
        = (a.data ++ ('/' :: w.data)) ++ (gitSlashL ++ r2.data) := by
      simp [String.data_append, gitSlashL, List.append_assoc,
        (show (".git/" : String).data = ['.', 'g', 'i', 't', '/'] from rfl),
        (show ("/" : String).data = ['/'] from rfl)]
    rw [hshape]
    exact occursIn_of_infix gitSlashL _ _
  rw [hq] at hocc
  exact (nomatch hocc)


/-! ### Lemmas about the worker pool -/

/-- The empty trace trivially satisfies `leadsOnly`. -/
theorem leadsOnly_nil (j : Nat) : leadsOnly j [] := by
  simp [leadsOnly]

/-- Prepending an event of job `j` preserves `leadsOnly j`. -/
theorem leadsOnly_cons_self (j : Nat) (st : Effect) (tr : List (Nat × Effect)) :
    leadsOnly j ((j, st) :: tr) ↔ leadsOnly j tr := by
  simp [leadsOnly, List.dropWhile]

/-- A job absent from a trace satisfies `leadsOnly`. -/
theorem leadsOnly_of_not_mem (j : Nat) (tr : List (Nat × Effect))
    (h : j ∉ tr.map Prod.fst) : leadsOnly j tr := by
  simp only [leadsOnly]
  intro hmem
  exact h (((tr.dropWhile_sublist _).map Prod.fst).subset hmem)

/-- Invariant proof: with one worker, every pool trace is serial, a
running job's remaining events lead the trace, and jobs absent from
the scheduler emit nothing. -/
theorem poolRun_serial_aux {w : Nat} {s : PoolState} {tr : List (Nat × Effect)}
    (hrun : PoolRun w s tr) (hw : w = 1) :
    s.running.length ≤ 1 →
    (s.pending.map Prod.fst ++ s.running.map Prod.fst).Nodup →
    SerialTrace tr ∧
    (∀ jb ∈ s.running, leadsOnly jb.1 tr) ∧
    (∀ j, j ∉ s.pending.map Prod.fst → j ∉ s.running.map Prod.fst →
      j ∉ tr.map Prod.fst) := by
  subst hw
  induction hrun with
  | halt s =>
    intro _ _
    exact ⟨trivial, fun jb _ => leadsOnly_nil jb.1, fun j _ _ => by simp⟩
  | start p1 p2 j r tr hlen hrec ih =>
    intro hlen1 hnd
    have hr : r = [] := List.length_eq_zero.mp (Nat.lt_one_iff.mp hlen)
    subst hr
    simp only at hlen1 hnd ⊢
    have hperm : ((p1 ++ j :: p2).map Prod.fst).Perm
        ((p1 ++ p2).map Prod.fst ++ [j.1]) := by
      simp only [List.map_append, List.map_cons]
      exact List.perm_middle.trans (List.perm_append_singleton _ _).symm
    have hnd' : ((p1 ++ p2).map Prod.fst ++
        ((j :: []) : List (Nat × List Effect)).map Prod.fst).Nodup := by
      simp only [List.map_cons, List.map_nil]
      exact hperm.nodup (by simpa using hnd)
    obtain ⟨hser, _, hnot⟩ := ih (by simp) hnd'
    refine ⟨hser, by simp, ?_⟩
    intro j' hp hrr
    apply hnot j'
    · intro hmem
      apply hp
      simp only [List.map_append, List.mem_append] at hmem ⊢
      rcases hmem with h1 | h2
      · exact Or.inl h1
      · exact Or.inr (by simp [h2])
    · intro hmem
      simp only [List.map_cons, List.map_nil, List.mem_singleton] at hmem
      apply hp
      subst hmem
      simp
  | work p r1 r2 j st ss tr hrec ih =>
    intro hlen1 hnd
    simp only [List.length_append, List.length_cons] at hlen1
    have e1 : r1 = [] := List.length_eq_zero.mp (by omega)
    have e2 : r2 = [] := List.length_eq_zero.mp (by omega)
    subst e1
    subst e2
    simp only at hnd ⊢
    have hnd' : (p.map Prod.fst ++
        ([(j, ss)] : List (Nat × List Effect)).map Prod.fst).Nodup := by
      simpa using hnd
    obtain ⟨hser, hlead, hnot⟩ := ih (by simp) hnd'
    have hlj : leadsOnly j tr := hlead (j, ss) (by simp)
    refine ⟨⟨hlj, hser⟩, ?_, ?_⟩
    · intro jb hjb
      simp only [List.nil_append, List.mem_singleton] at hjb
      subst hjb
      exact (leadsOnly_cons_self j st tr).mpr hlj
    · intro j' hp hrr
      simp only [List.nil_append, List.map_cons, List.map_nil,
        List.mem_singleton] at hrr
      intro hmem
      simp only [List.map_cons, List.mem_cons] at hmem
      rcases hmem with h | h
      · exact hrr h
      · exact hnot j' hp (by simpa using hrr) h
  | finish p r1 r2 j tr hrec ih =>
    intro hlen1 hnd
    simp only [List.length_append, List.length_cons] at hlen1
    have e1 : r1 = [] := List.length_eq_zero.mp (by omega)
    have e2 : r2 = [] := List.length_eq_zero.mp (by omega)
    subst e1
    subst e2
    simp only at hnd ⊢
    have hnd0 : (p.map Prod.fst ++ [j]).Nodup := by simpa using hnd
    have hsplit := List.nodup_append.mp hnd0
    obtain ⟨hser, _, hnot⟩ := ih (by simp) (by simpa using hsplit.1)
    have hjnotp : j ∉ p.map Prod.fst := by
      intro hmem
      exact hsplit.2.2 hmem (by simp)
    refine ⟨hser, ?_, ?_⟩
    · intro jb hjb
      simp only [List.nil_append, List.mem_singleton] at hjb
      subst hjb
      exact leadsOnly_of_not_mem j tr (hnot j hjnotp (by simp))
    · intro j' hp _
      exact hnot j' hp (by simp)

/-! ## Claim theorems (first group) -/

/-- C10: In the GraphQL GET adapter, the `operationName` query-string
parameter is never used: for every parsed query string,
`gql_request_from_get` returns a request whose `operation_name` is
`None`, and a repeated `operationName` parameter never triggers the
"specified multiple times" error — repeated `query` or `variables`
parameters do. -/
theorem gql_get_ignores_operationName (V : Type)
    (parseJson : String → Except String V) (pairs : List (String × String)) :
    (∀ r, gql_request_from_get parseJson pairs = .ok r → r.operation_name = none) ∧
    gql_request_from_get parseJson pairs ≠ .error (invalid_err "operationName") ∧
    gql_request_from_get (fun s => (.ok s : Except String String))
      [("query", "a"), ("query", "b")] = .error (invalid_err "query") ∧
    gql_request_from_get (fun s => (.ok s : Except String String))
      [("variables", "null"), ("variables", "null")] = .error (invalid_err "variables") := by
  obtain ⟨hok, hne⟩ := gqlFold_keeps_none parseJson pairs none none
  refine ⟨?_, ?_, rfl, rfl⟩
  · intro r h
    unfold gql_request_from_get at h
    revert h
    cases hg : gqlFold parseJson pairs none none none with
    | error e => intro h; exact (nomatch h)
    | ok res =>
      obtain ⟨q, op, vars⟩ := res
      have hop : op = none := hok (q, op, vars) hg
      subst hop
      cases q with
      | none => intro h; exact (nomatch h)
      | some qq =>
        intro h
        cases h
        rfl
  · intro h
    unfold gql_request_from_get at h
    revert h
    cases hg : gqlFold parseJson pairs none none none with
    | error e =>
      intro h
      cases h
      exact hne hg
    | ok res =>
      obtain ⟨q, op, vars⟩ := res
      cases q with
      | none => intro h; simp [invalid_err] at h
      | some qq => intro h; exact (nomatch h)

/-- C10 witness: on the concrete query string `query=q` the adapter
returns a request whose `operation_name` is `None`. -/
theorem gql_get_ignores_operationName_witness :
    (GqlRequest.mk "q" none (none : Option String)).operation_name = none :=
  (gql_get_ignores_operationName String (fun s => .ok s) [("query", "q")]).1
    (GqlRequest.mk "q" none none) rfl

/-- C8 counterexample: when the hosting operation (`init_bare`) fails,
`TestHost::create_project` does not return an error `Result` — it
panics. -/
theorem testhost_create_project_counterexample :
    TestHost.create_project (.error ⟨"conflict"⟩) =
      .panicked "TestHost: init_bare failed" ∧
    returnsErrValue (TestHost.create_project (.error ⟨"conflict"⟩)) = false :=
  ⟨rfl, rfl⟩

/-- C8 (amended): `TestHost::create_project` never returns an error
value; it returns `Ok(())` whenever `init_bare` succeeds and panics
(via `.expect`) when `init_bare` fails. -/
theorem testhost_create_project_never_errs (r : Except GitError Unit) :
    returnsErrValue (TestHost.create_project r) = false ∧
    (∀ u, r = .ok u → TestHost.create_project r = .ok (.ok ())) ∧
    (∀ e, r = .error e →
      TestHost.create_project r = .panicked "TestHost: init_bare failed") := by
  cases r <;> simp [TestHost.create_project, returnsErrValue]

/-- C8 witness: the amended statement evaluated at a concrete failing
`init_bare` outcome. -/
theorem testhost_create_project_never_errs_witness :
    TestHost.create_project (Except.error ⟨"already exists"⟩) =
      .panicked "TestHost: init_bare failed" :=
  (testhost_create_project_never_errs (Except.error ⟨"already exists"⟩)).2.2
    ⟨"already exists"⟩ rfl

/-- C6: when the zeroth argument ends in `/update`, the process exit
status equals the value of the update hook applied to the three
positional arguments. -/
theorem update_hook_drives_exit_status
    (update_hook : String → String → String → Int)
    (a0 a1 a2 a3 : String) (rest : List String)
    (h : strEndsWith a0 "/update" = true) :
    processExitStatus update_hook (a0 :: a1 :: a2 :: a3 :: rest) =
      some (update_hook a1 a2 a3) := by
  simp [processExitStatus, main_ret, h]

/-- C6 witness: a concrete hook invocation with exit code 7. -/
theorem update_hook_drives_exit_status_witness :
    processExitStatus (fun _ _ _ => 7)
      ["hooks/update", "refs/heads/master", "a8", "b9"] = some 7 :=
  update_hook_drives_exit_status (fun _ _ _ => 7)
    "hooks/update" "refs/heads/master" "a8" "b9" [] (by decide)


/-! ## Claim theorems (second group) -/

/-- C9: for a request path of the well-formed shape `/<v>.git/...`
(the regex capture, i.e. greedy: no later `".git/"` in the remainder,
no newline in `v`), the view string used for provisioning is exactly
`v`; for a path admitting no such decomposition the identity view `"."`
is used. -/
theorem view_string_selection (path v rest q : String)
    (hpath : path = "/" ++ v ++ ".git/" ++ rest)
    (hnl : hasNlL v.data = false)
    (hocc : occursIn gitSlashL rest.data = false)
    (hq : ∀ a w r2 : String, hasNlL w.data = false → q ≠ a ++ "/" ++ w ++ ".git/" ++ r2) :
    viewOf path = v ∧ viewOf q = "." := by
  constructor
  · rw [hpath]
    exact viewOf_wf v rest hnl hocc
  · cases hg : reCap q.data with
    | none => simp [viewOf, hg]
    | some vr =>
      obtain ⟨w, r⟩ := vr
      obtain ⟨a, hqdata, hw⟩ := reCap_sound q.data w r hg
      exfalso
      apply hq (String.mk a) (String.mk w) (String.mk r) hw
      apply String.ext
      rw [hqdata]
      simp [String.data_append, gitSlashL, List.append_assoc,
        (show (".git/" : String).data = ['.', 'g', 'i', 't', '/'] from rfl),
        (show ("/" : String).data = ['/'] from rfl)]

/-- C9 witness: `/a.git/info/refs` provisions view `a`; the path
`/x/y` (which matches no `/<w>.git/` pattern) provisions the identity
view `"."`. -/
theorem view_string_selection_witness :
    viewOf "/a.git/info/refs" = "a" ∧ viewOf "/x/y" = "." :=
  view_string_selection "/a.git/info/refs" "a" "info/refs" "/x/y"
    (by decide) (by decide) (by decide)
    (no_decomp_of_no_gitSlash "/x/y" (by decide))

/-- C1: a request without Basic credentials is answered `401` with the
`WWW-Authenticate: Basic` challenge, and no effect (no fetch, no
filtering, no backend invocation) is performed. -/
theorem call_no_credentials_401 (env : ServiceEnv) (req : HttpRequest)
    (h : req.auth = none) :
    (BobbleHttp.call env req).1.status = 401 ∧
    ("WWW-Authenticate", "Basic realm=\"User Visible Realm\"") ∈
      (BobbleHttp.call env req).1.headers ∧
    (BobbleHttp.call env req).2 = [] := by
  simp [BobbleHttp.call, h, challengeResponse]

/-- C1 witness: a concrete credential-less request. -/
theorem call_no_credentials_401_witness :
    (BobbleHttp.call ⟨.ok (), ["refs/heads/master"], "/tmp/view", ⟨200, []⟩⟩
        ⟨"/a.git/info/refs", none⟩).1.status = 401 ∧
    ("WWW-Authenticate", "Basic realm=\"User Visible Realm\"") ∈
      (BobbleHttp.call ⟨.ok (), ["refs/heads/master"], "/tmp/view", ⟨200, []⟩⟩
        ⟨"/a.git/info/refs", none⟩).1.headers ∧
    (BobbleHttp.call ⟨.ok (), ["refs/heads/master"], "/tmp/view", ⟨200, []⟩⟩
        ⟨"/a.git/info/refs", none⟩).2 = [] :=
  call_no_credentials_401 _ _ rfl

/-- C3: `async_fetch` first fetches; only on fetch success does it
filter every branch of the base repository and then set up the scratch
repository; on fetch failure it returns the error having performed the
fetch attempt alone — no branch filtering, no scratch setup. -/
theorem async_fetch_fetch_then_filter (env : ServiceEnv) (path u pw : String) :
    (env.fetchResult = .ok () →
      async_fetch env path u pw =
        (.ok env.tmpPath,
          Effect.fetchOriginMaster u pw ::
            (env.branches.map (fun b => Effect.applyViewToBranch b (viewOf path))
              ++ [Effect.setupTmpRepo (viewOf path)]))) ∧
    (∀ e, env.fetchResult = .error e →
      async_fetch env path u pw = (.error e, [Effect.fetchOriginMaster u pw])) := by
  constructor
  · intro hf
    simp [async_fetch, make_view_repo, hf]
  · intro e hf
    simp [async_fetch, hf]

/-- C3 witness: concrete failing and succeeding fetches. -/
theorem async_fetch_fetch_then_filter_witness :
    async_fetch ⟨.error ⟨"denied"⟩, ["master"], "/tmp/vr", ⟨200, []⟩⟩ "/a.git/x" "u" "p"
      = (.error ⟨"denied"⟩, [Effect.fetchOriginMaster "u" "p"]) ∧
    async_fetch ⟨.ok (), ["master"], "/tmp/vr", ⟨200, []⟩⟩ "/a.git/x" "u" "p"
      = (.ok "/tmp/vr",
          [Effect.fetchOriginMaster "u" "p",
           Effect.applyViewToBranch "master" "a", Effect.setupTmpRepo "a"]) := by
  constructor
  · exact (async_fetch_fetch_then_filter ⟨.error ⟨"denied"⟩, ["master"], "/tmp/vr",
      ⟨200, []⟩⟩ "/a.git/x" "u" "p").2 ⟨"denied"⟩ rfl
  · exact ((async_fetch_fetch_then_filter ⟨.ok (), ["master"], "/tmp/vr",
      ⟨200, []⟩⟩ "/a.git/x" "u" "p").1 rfl).trans rfl

/-- C4: when the authenticated fetch fails, the request is answered
`401` with the Basic challenge; the effect trace is exactly one fetch
attempt (no retry) and contains no CGI backend invocation. -/
theorem call_fetch_error_401 (env : ServiceEnv) (req : HttpRequest)
    (creds : BasicCreds) (e : GitError)
    (hauth : req.auth = some creds) (hf : env.fetchResult = .error e) :
    BobbleHttp.call env req =
      (challengeResponse,
        [Effect.fetchOriginMaster creds.username (creds.password.getD "")]) ∧
    challengeResponse.status = 401 ∧
    ("WWW-Authenticate", "Basic realm=\"User Visible Realm\"") ∈
      challengeResponse.headers := by
  refine ⟨?_, rfl, by simp [challengeResponse]⟩
  simp [BobbleHttp.call, async_fetch, hauth, hf]

/-- C4 witness: a concrete request whose fetch fails. -/
theorem call_fetch_error_401_witness :
    BobbleHttp.call ⟨.error ⟨"auth rejected"⟩, ["master"], "/tmp/vr", ⟨200, []⟩⟩
        ⟨"/a.git/info/refs", some ⟨"u", some "pw"⟩⟩ =
      (challengeResponse, [Effect.fetchOriginMaster "u" "pw"]) :=
  (call_fetch_error_401 ⟨.error ⟨"auth rejected"⟩, ["master"], "/tmp/vr", ⟨200, []⟩⟩
    ⟨"/a.git/info/refs", some ⟨"u", some "pw"⟩⟩ ⟨"u", some "pw"⟩ ⟨"auth rejected"⟩
    rfl rfl).1

/-- C5: a successfully provisioned request spawns the CGI backend with
exactly the four environment variables: `GIT_PROJECT_ROOT` and
`GIT_DIR` both the virtual repository path, `GIT_HTTP_EXPORT_ALL` set
(empty), and `PATH_INFO` the request path with its leading
`/<view>.git` prefix removed. -/
theorem call_sets_cgi_env (env : ServiceEnv) (req : HttpRequest)
    (creds : BasicCreds) (v rest : String)
    (hauth : req.auth = some creds) (hf : env.fetchResult = .ok ())
    (hpath : req.path = "/" ++ v ++ ".git/" ++ rest)
    (hnl : hasNlL v.data = false)
    (hocc : occursIn gitSlashL rest.data = false) :
    BobbleHttp.call env req =
      (env.cgiResponse,
        Effect.fetchOriginMaster creds.username (creds.password.getD "") ::
          (env.branches.map (fun b => Effect.applyViewToBranch b v)
            ++ [Effect.setupTmpRepo v,
                Effect.invokeCgi
                  [("GIT_PROJECT_ROOT", env.tmpPath), ("GIT_DIR", env.tmpPath),
                   ("GIT_HTTP_EXPORT_ALL", ""), ("PATH_INFO", "/" ++ rest)]])) ∧
    ("/" ++ v ++ ".git") ++ ("/" ++ rest) = req.path := by
  obtain ⟨p, a⟩ := req
  simp only at hauth hpath
  subst hauth
  subst hpath
  have hview : viewOf ("/" ++ v ++ ".git/" ++ rest) = v := viewOf_wf v rest hnl hocc
  have hpre : prefOf ("/" ++ v ++ ".git/" ++ rest) = "/" ++ v ++ ".git" :=
    prefOf_wf v rest hnl hocc
  have hpredata : ("/" ++ v ++ ".git").data = '/' :: (v.data ++ ['.', 'g', 'i', 't']) := by
    simp [String.data_append,
      (show (".git" : String).data = ['.', 'g', 'i', 't'] from rfl),
      (show ("/" : String).data = ['/'] from rfl)]
  have hprene : prefOf ("/" ++ v ++ ".git/" ++ rest) ≠ "" := by
    rw [hpre]
    intro h
    have hd := congrArg String.data h
    rw [hpredata] at hd
    exact (nomatch hd)
  have hsplit : ("/" ++ v ++ ".git/" ++ rest).data
      = ("/" ++ v ++ ".git").data ++ ('/' :: rest.data) := by
    rw [data_of_path, hpredata]
    simp [gitSlashL, List.append_assoc]
  have hrepl : strReplacen1 ("/" ++ v ++ ".git/" ++ rest)
      (prefOf ("/" ++ v ++ ".git/" ++ rest)) = "/" ++ rest := by
    rw [hpre]
    unfold strReplacen1
    rw [hsplit, replacen1_append]
    apply String.ext
    simp [String.data_append, (show ("/" : String).data = ['/'] from rfl)]
  constructor
  · simp only [BobbleHttp.call]
    rw [if_pos hprene, hrepl]
    simp [async_fetch, make_view_repo, hf, hview]
  · apply String.ext
    rw [data_of_path]
    simp [String.data_append, gitSlashL, List.append_assoc,
      (show (".git" : String).data = ['.', 'g', 'i', 't'] from rfl),
      (show ("/" : String).data = ['/'] from rfl)]

/-- C5 witness: a concrete provisioned request. -/
theorem call_sets_cgi_env_witness :
    BobbleHttp.call ⟨.ok (), ["master"], "/tmp/vr", ⟨200, []⟩⟩
        ⟨"/a.git/info/refs", some ⟨"u", some "pw"⟩⟩ =
      (⟨200, []⟩,
        Effect.fetchOriginMaster "u" "pw" ::
          ([Effect.applyViewToBranch "master" "a"]
            ++ [Effect.setupTmpRepo "a",
                Effect.invokeCgi
                  [("GIT_PROJECT_ROOT", "/tmp/vr"), ("GIT_DIR", "/tmp/vr"),
                   ("GIT_HTTP_EXPORT_ALL", ""), ("PATH_INFO", "/" ++ "info/refs")]])) ∧
    ("/" ++ "a" ++ ".git") ++ ("/" ++ "info/refs") = "/a.git/info/refs" :=
  call_sets_cgi_env ⟨.ok (), ["master"], "/tmp/vr", ⟨200, []⟩⟩
    ⟨"/a.git/info/refs", some ⟨"u", some "pw"⟩⟩ ⟨"u", some "pw"⟩ "a" "info/refs"
    rfl rfl (by decide) (by decide) (by decide)


/-- C2: the fetch-and-filter work of concurrently dispatched requests
never interleaves: `main_ret` creates a one-worker pool
(`CpuPool::new(1)`), and every trace of that pool over the request
jobs (with distinct request ids) is serial — each request's fetch and
filtering events form one contiguous block. -/
theorem pool_serializes_fetch_and_filter
    (reqs : List (Nat × ServiceEnv × HttpRequest × BasicCreds))
    (tr : List (Nat × Effect))
    (hnd : (reqs.map Prod.fst).Nodup)
    (hrun : PoolRun cpuPoolWorkers
      ⟨reqs.map (fun q => requestJob q.2.1 q.2.2.1 q.1 q.2.2.2), []⟩ tr) :
    SerialTrace tr := by
  have hids : ((reqs.map (fun q => requestJob q.2.1 q.2.2.1 q.1 q.2.2.2)).map
      Prod.fst) = reqs.map Prod.fst := by
    simp [List.map_map, requestJob, Function.comp]
  obtain ⟨hser, _, _⟩ := poolRun_serial_aux hrun rfl (by simp)
    (by simpa [hids] using hnd)
  exact hser

/-- C2 witness: an explicit one-worker schedule of two concrete
requests; the theorem yields seriality of the resulting trace. -/
theorem pool_serializes_fetch_and_filter_witness :
    SerialTrace
      [(0, Effect.fetchOriginMaster "u" "p"),
       (0, Effect.applyViewToBranch "master" "a"),
       (0, Effect.setupTmpRepo "a"),
       (1, Effect.fetchOriginMaster "v" "q")] := by
  apply pool_serializes_fetch_and_filter
    [(0, ⟨.ok (), ["master"], "/tmp/vr", ⟨200, []⟩⟩,
        ⟨"/a.git/x", some ⟨"u", some "p"⟩⟩, ⟨"u", some "p"⟩),
     (1, ⟨.error ⟨"denied"⟩, ["master"], "/tmp/vr", ⟨200, []⟩⟩,
        ⟨"/b.git/x", some ⟨"v", some "q"⟩⟩, ⟨"v", some "q"⟩)]
    _ (by decide)
  show PoolRun 1
    ⟨[(0, [Effect.fetchOriginMaster "u" "p",
           Effect.applyViewToBranch "master" "a", Effect.setupTmpRepo "a"]),
      (1, [Effect.fetchOriginMaster "v" "q"])], []⟩
    [(0, Effect.fetchOriginMaster "u" "p"),
     (0, Effect.applyViewToBranch "master" "a"),
     (0, Effect.setupTmpRepo "a"),
     (1, Effect.fetchOriginMaster "v" "q")]
  refine PoolRun.start [] [(1, [Effect.fetchOriginMaster "v" "q"])]
    (0, [Effect.fetchOriginMaster "u" "p",
         Effect.applyViewToBranch "master" "a", Effect.setupTmpRepo "a"])
    [] _ (by decide) ?_
  refine PoolRun.work [(1, [Effect.fetchOriginMaster "v" "q"])] [] [] 0
    (Effect.fetchOriginMaster "u" "p")
    [Effect.applyViewToBranch "master" "a", Effect.setupTmpRepo "a"] _ ?_
  refine PoolRun.work [(1, [Effect.fetchOriginMaster "v" "q"])] [] [] 0
    (Effect.applyViewToBranch "master" "a") [Effect.setupTmpRepo "a"] _ ?_
  refine PoolRun.work [(1, [Effect.fetchOriginMaster "v" "q"])] [] [] 0
    (Effect.setupTmpRepo "a") [] _ ?_
  refine PoolRun.finish [(1, [Effect.fetchOriginMaster "v" "q"])] [] [] 0 _ ?_
  refine PoolRun.start [] [] (1, [Effect.fetchOriginMaster "v" "q"]) [] _
    (by decide) ?_
  refine PoolRun.work [] [] [] 1 (Effect.fetchOriginMaster "v" "q") [] _ ?_
  refine PoolRun.finish [] [] [] 1 _ ?_
  exact PoolRun.halt _

/-! ### Lemmas about the History Filter -/

/-- A successful cache lookup is a cache entry. -/
theorem cacheLookup_mem (oid : Nat) (cache : List (Nat × Option FCommit))
    (img : Option FCommit) (h : cacheLookup oid cache = some img) :
    (oid, img) ∈ cache := by
  induction cache with
  | nil => exact (nomatch h)
  | cons pr rest ih =>
    obtain ⟨k, im⟩ := pr
    simp only [cacheLookup] at h
    by_cases hk : k = oid
    · rw [if_pos hk] at h
      injection h with h
      subst hk
      subst h
      exact List.mem_cons_self _ _
    · rw [if_neg hk] at h
      exact List.mem_cons_of_mem _ (ih h)

/-- The memoized filter agrees with the pure filter whenever its cache
is correct, and it preserves cache correctness. -/
theorem filterMemo_agrees (v : List String) (store : List SCommit) :
    ∀ oid cache, CacheOK v store cache →
      (filterMemo v store oid cache).1 = filterCommit v store oid ∧
      CacheOK v store (filterMemo v store oid cache).2 := by
  intro oid
  induction oid using Nat.strong_induction_on with
  | _ oid ih =>
    have hps : ∀ ps cache, CacheOK v store cache →
        (filterMemoParents v store oid ps cache).1 = filterParents v store oid ps ∧
        CacheOK v store (filterMemoParents v store oid ps cache).2 := by
      intro ps
      induction ps with
      | nil =>
        intro cache hc
        constructor
        · simp [filterMemoParents, filterParents]
        · simpa [filterMemoParents] using hc
      | cons p ps ihp =>
        intro cache hc
        by_cases h : p < oid
        · obtain ⟨hres, hcOK⟩ := ih p h cache hc
          cases hfm : filterMemo v store p cache with
          | mk res cache2 =>
            rw [hfm] at hres hcOK
            simp only at hres hcOK
            cases res with
            | error e =>
              refine ⟨?_, ?_⟩
              · simp [filterMemoParents, dif_pos h, hfm, filterParents, ← hres]
              · simp only [filterMemoParents, dif_pos h, hfm]
                exact hcOK
            | ok i =>
              obtain ⟨hres2, hcOK2⟩ := ihp cache2 hcOK
              cases hfp : filterMemoParents v store oid ps cache2 with
              | mk res2 cache3 =>
                rw [hfp] at hres2 hcOK2
                simp only at hres2 hcOK2
                cases res2 with
                | error e2 =>
                  refine ⟨?_, ?_⟩
                  · simp [filterMemoParents, dif_pos h, hfm, hfp, filterParents,
                      ← hres, ← hres2]
                  · simp only [filterMemoParents, dif_pos h, hfm, hfp]
                    exact hcOK2
                | ok is =>
                  refine ⟨?_, ?_⟩
                  · simp [filterMemoParents, dif_pos h, hfm, hfp, filterParents,
                      ← hres, ← hres2]
                  · simp only [filterMemoParents, dif_pos h, hfm, hfp]
                    exact hcOK2
        · refine ⟨?_, ?_⟩
          · simp [filterMemoParents, dif_neg h, filterParents]
          · simp only [filterMemoParents, dif_neg h]
            exact hc
    intro cache hc
    cases hl : cacheLookup oid cache with
    | some img =>
      have hmem : (oid, img) ∈ cache := cacheLookup_mem oid cache img hl
      refine ⟨?_, ?_⟩
      · simp only [filterMemo, hl]
        exact (hc (oid, img) hmem).symm
      · simp only [filterMemo, hl]
        exact hc
    | none =>
      cases hs : store[oid]? with
      | none =>
        refine ⟨?_, ?_⟩
        · simp [filterMemo, filterCommit, hl, hs]
        · simp only [filterMemo, hl, hs]
          exact hc
      | some c =>
        obtain ⟨hres, hc2⟩ := hps c.parents cache hc
        cases hfp : filterMemoParents v store oid c.parents cache with
        | mk res cache2 =>
          rw [hfp] at hres hc2
          simp only at hres hc2
          cases res with
          | error e =>
            refine ⟨?_, ?_⟩
            · simp [filterMemo, filterCommit, hl, hs, hfp, ← hres]
            · simp only [filterMemo, hl, hs, hfp]
              exact hc2
          | ok imgs =>
            refine ⟨?_, ?_⟩
            · simp [filterMemo, filterCommit, hl, hs, hfp, ← hres]
            · simp only [filterMemo, hl, hs, hfp]
              intro pr hpr
              rcases List.mem_cons.mp hpr with hpr1 | hpr2
              · subst hpr1
                simp only [filterCommit, hs, ← hres]
              · exact hc2 pr hpr2

/-- C7: filtering is deterministic and idempotent — running the
memoized History Filter a second time on the same (view, commit) pair,
with the Filter Cache persisted from the first run, yields the same
filtered (content-addressed) image, and both runs compute exactly the
pure filter semantics of §4.1. -/
theorem filter_deterministic_idempotent (v : List String)
    (store : List SCommit) (oid : Nat) :
    (filterMemo v store oid (filterMemo v store oid []).2).1 =
      (filterMemo v store oid []).1 ∧
    (filterMemo v store oid []).1 = filterCommit v store oid := by
  have h0 : CacheOK v store [] := by
    intro pr hpr
    exact absurd hpr (List.not_mem_nil pr)
  obtain ⟨h1, hc1⟩ := filterMemo_agrees v store oid [] h0
  obtain ⟨h2, _⟩ := filterMemo_agrees v store oid (filterMemo v store oid []).2 hc1
  exact ⟨h2.trans h1.symm, h1⟩
